import Mathlib

/-!
Verification of the Shamir secret-sharing / Feldman / Pedersen VSS library.

Shallow embedding of the Rust sources:
  src/sm2/src/polynomial.rs, src/sm2/src/secret_sharing.rs, src/sm2/src/share.rs.

Modelling conventions:
* The scalar field (`sm2::Scalar`, supplied by the external curve provider) is an
  arbitrary field `F`; the elliptic-curve point group (`sm2::ProjectivePoint`) is an
  additive commutative group `P` with scalar multiplication by `F`, i.e. a module.
  Rust's `point * scalar` becomes `scalar • point`.
* A random-number generator is an infinite stream `rng : Nat → F`; the k-th value
  drawn inside one call is `rng k`.  All theorems quantify over every stream.
* Fallible code returns `Option`: `denominator.invert().unwrap()` panics when the
  denominator is zero, and `t - 1` on `usize` faults (overflow-checked subtraction)
  when `t = 0`; both are modelled as `none`.
-/

open scoped Polynomial

namespace SecretSharing

variable {F : Type} [Field F] {P : Type} [AddCommGroup P] [Module F P]

/-- `struct Polynomial { coefficients: Vec<Scalar> }` (polynomial.rs, lines 7-10):
coefficients ordered from the constant term upwards. -/
structure Polynomial (F : Type) where
  coefficients : List F
deriving DecidableEq

/-- `Polynomial::new(secret, degree, rng)` (polynomial.rs, lines 20-29): the constant
term is `secret`, followed by `degree` random coefficients drawn from `rng`. -/
def Polynomial.new (secret : F) (degree : Nat) (rng : Nat → F) : Polynomial F :=
  ⟨secret :: (List.range degree).map rng⟩

/-- `Polynomial::evaluate(x)` (polynomial.rs, lines 40-45): Horner fold over the
reversed coefficient list, `acc * x + coeff`, starting from zero. -/
def Polynomial.evaluate (p : Polynomial F) (x : F) : F :=
  p.coefficients.reverse.foldl (fun acc coeff => acc * x + coeff) 0

/-- `Polynomial::commit(g, h, rng)` (polynomial.rs, lines 56-80): for each
coefficient draw a fresh blinding scalar `r` and push `g·coeff + h·r`; also return
the blinding factors as a polynomial. -/
def Polynomial.commit (p : Polynomial F) (g h : P) (rng : Nat → F) :
    List P × Polynomial F :=
  let blinding_factors := (List.range p.coefficients.length).map rng
  let commitments := List.zipWith (fun coeff r => coeff • g + r • h) p.coefficients blinding_factors
  (commitments, ⟨blinding_factors⟩)

/-- Modelled from the spec: `feldman_commit(g)` is called by
`generate_shares_with_feldman_vss` (secret_sharing.rs, line 72) but its definition
is not under src/.  Spec §4.1: "for each coefficient `c_i`, commitment `C_i = g · c_i`.
Returns an ordered sequence of Points aligned by index with the coefficients." -/
def Polynomial.feldman_commit (p : Polynomial F) (g : P) : List P :=
  p.coefficients.map (fun coeff => coeff • g)

/-- Modelled from the spec: `pedersen_commit(g, h, rng)` is called by
`generate_shares_with_pedersen_vss` (secret_sharing.rs, line 146) but its definition
is not under src/.  Spec §4.1 describes exactly the operation implemented by
`Polynomial::commit` in src (`C_i = g·c_i + h·r_i` with fresh `r_i`, returning the
commitment vector and the blinding polynomial), so it delegates to it. -/
def Polynomial.pedersen_commit (p : Polynomial F) (g h : P) (rng : Nat → F) :
    List P × Polynomial F :=
  p.commit g h rng

/-- `generate_shares(secret, n, t, rng)` (secret_sharing.rs, lines 7-19): builds a
degree `t-1` polynomial with constant term `secret` and evaluates it at
`x = 1, …, n`.  The `usize` subtraction `t - 1` faults when `t = 0` (overflow-checked
subtraction panics), modelled as `none`. -/
def generate_shares (secret : F) (n t : Nat) (rng : Nat → F) :
    Option (List (F × F)) :=
  if t = 0 then none
  else
    let poly : Polynomial F := Polynomial.new secret (t - 1) rng
    some ((List.range n).map (fun i => (((i + 1 : Nat) : F), poly.evaluate ((i + 1 : Nat) : F))))

/-- Inner loop of `reconstruct_secret` (secret_sharing.rs, lines 27-39): starting
from `(1, 1)`, for every index `j ≠ i` multiply the numerator by `x_j` and the
denominator by `x_j − x_i`. -/
def lagrange_num_den (shares : List (F × F)) (i : Nat) (x_i : F) : F × F :=
  shares.enum.foldl
    (fun nd jxy => if i = jxy.1 then nd else (nd.1 * jxy.2.1, nd.2 * (jxy.2.1 - x_i)))
    (1, 1)

/-- `reconstruct_secret(shares)` (secret_sharing.rs, lines 22-47): Lagrange
interpolation at `x = 0`; accumulates `y_i · (numerator · denominator⁻¹)`.
`denominator.invert().unwrap()` panics when the denominator is zero, modelled as
`none`. -/
def reconstruct_secret [DecidableEq F] (shares : List (F × F)) : Option F :=
  shares.enum.foldl
    (fun acc ixy =>
      acc.bind (fun s =>
        let nd := lagrange_num_den shares ixy.1 ixy.2.1
        if nd.2 = 0 then none
        else some (s + ixy.2.2 * (nd.1 * nd.2⁻¹))))
    (some 0)

/-- `generate_shares_with_feldman_vss(secret, n, t, g, rng)` (secret_sharing.rs,
lines 62-88): polynomial creation, Feldman commitments, and evaluation at
`x = 1, …, n`.  The `t - 1` underflow at `t = 0` is modelled as `none`. -/
def generate_shares_with_feldman_vss (secret : F) (n t : Nat) (g : P)
    (rng : Nat → F) : Option (List (F × F) × List P) :=
  if t = 0 then none
  else
    let poly : Polynomial F := Polynomial.new secret (t - 1) rng
    let commitments := poly.feldman_commit g
    some ((List.range n).map (fun i => (((i + 1 : Nat) : F), poly.evaluate ((i + 1 : Nat) : F))),
      commitments)

/-- The commitment accumulation loop shared by both verifiers (secret_sharing.rs,
lines 112-115 and 193-196): `C_0 + C_1·x + C_2·x² + …`. -/
def commitment_at (commitments : List P) (x : F) : P :=
  commitments.enum.foldl (fun acc ic => acc + x ^ ic.1 • ic.2) 0

/-- `verify_share_with_feldman_vss(share, commitments, g)` (secret_sharing.rs,
lines 101-119): `g·y == Σ_i C_i·x^i`. -/
def verify_share_with_feldman_vss [DecidableEq P] (share : F × F)
    (commitments : List P) (g : P) : Bool :=
  share.2 • g == commitment_at commitments share.1

/-- `generate_shares_with_pedersen_vss(secret, n, t, g, h, rng)` (secret_sharing.rs,
lines 135-162): polynomial creation, Pedersen commitments with blinding polynomial,
and evaluation at `x = 1, …, n`.  The `t - 1` underflow at `t = 0` is modelled as
`none`; the commit call sees the stream advanced past the `t - 1` draws made by
`Polynomial::new` (Rust's rng is stateful). -/
def generate_shares_with_pedersen_vss (secret : F) (n t : Nat) (g h : P)
    (rng : Nat → F) : Option (List (F × F) × List P × Polynomial F) :=
  if t = 0 then none
  else
    let poly : Polynomial F := Polynomial.new secret (t - 1) rng
    let cb := poly.pedersen_commit g h (fun k => rng ((t - 1) + k))
    some ((List.range n).map (fun i => (((i + 1 : Nat) : F), poly.evaluate ((i + 1 : Nat) : F))),
      cb.1, cb.2)

/-- `verify_share_with_pedersen_vss(share, commitments, blinding_poly, g, h)`
(secret_sharing.rs, lines 177-200): `g·y + h·blinding_poly(x) == Σ_i C_i·x^i`. -/
def verify_share_with_pedersen_vss [DecidableEq P] (share : F × F)
    (commitments : List P) (blinding_poly : Polynomial F) (g h : P) : Bool :=
  share.2 • g + (blinding_poly.evaluate share.1) • h == commitment_at commitments share.1

/-- Proof-side helper: Horner evaluation of a coefficient list as a right fold. -/
def hornerList (l : List F) (x : F) : F :=
  l.foldr (fun coeff acc => acc * x + coeff) 0

/-- Proof-side helper (not part of the embedding, never evaluated): the Mathlib
polynomial with the given coefficient list, constant term first. -/
noncomputable def toMathPoly (l : List F) : F[X] :=
  l.foldr (fun c q => Polynomial.C c + Polynomial.X * q) 0

/-- `ZMod 11` serves as a concrete instance of the scalar field (and, as a module
over itself, of the point group) for evaluating the theorems on concrete inputs. -/
instance : Fact (Nat.Prime 11) := ⟨by norm_num⟩

end SecretSharing

namespace SecretSharing

variable {F : Type} [Field F] {P : Type} [AddCommGroup P] [Module F P]

theorem evaluate_eq_hornerList (p : Polynomial F) (x : F) :
    p.evaluate x = hornerList p.coefficients x :=
  List.foldl_reverse _ _ _

theorem hornerList_nil (x : F) : hornerList ([] : List F) x = 0 := rfl

theorem hornerList_cons (c : F) (tl : List F) (x : F) :
    hornerList (c :: tl) x = hornerList tl x * x + c := rfl

theorem hornerList_eq_sum (l : List F) (x : F) :
    hornerList l x = ∑ i ∈ Finset.range l.length, l.getD i 0 * x ^ i := by
  induction l with
  | nil => simp [hornerList]
  | cons c tl ih =>
      rw [hornerList_cons, ih, List.length_cons, Finset.sum_range_succ']
      simp only [List.getD_cons_succ, List.getD_cons_zero, pow_zero, mul_one, Finset.sum_mul]
      congr 1
      refine Finset.sum_congr rfl fun i _ => ?_
      ring

theorem evaluate_eq_sum (p : Polynomial F) (x : F) :
    p.evaluate x = ∑ i ∈ Finset.range p.coefficients.length, p.coefficients.getD i 0 * x ^ i := by
  rw [evaluate_eq_hornerList, hornerList_eq_sum]

theorem commitment_at_enumFrom_foldl (x : F) (cs : List P) :
    ∀ (k : Nat) (a : P),
      (List.enumFrom k cs).foldl (fun acc ic => acc + x ^ ic.1 • ic.2) a
        = a + ∑ i ∈ Finset.range cs.length, x ^ (k + i) • cs.getD i 0 := by
  induction cs with
  | nil => intro k a; simp
  | cons c tl ih =>
      intro k a
      have hsum : ∑ i ∈ Finset.range tl.length, x ^ (k + (i + 1)) • tl.getD i 0
          = ∑ i ∈ Finset.range tl.length, x ^ ((k + 1) + i) • tl.getD i 0 :=
        Finset.sum_congr rfl fun i _ => by rw [show k + (i + 1) = (k + 1) + i from by omega]
      simp only [List.enumFrom, List.foldl_cons, ih (k + 1) (a + x ^ k • c),
        List.length_cons, Finset.sum_range_succ']
      simp only [List.getD_cons_succ, List.getD_cons_zero, Nat.add_zero]
      rw [hsum]
      abel

theorem commitment_at_eq_sum (cs : List P) (x : F) :
    commitment_at cs x = ∑ i ∈ Finset.range cs.length, x ^ i • cs.getD i 0 := by
  have h := commitment_at_enumFrom_foldl x cs 0 (0 : P)
  simp only [Nat.zero_add, zero_add] at h
  exact h

theorem commitment_at_feldman (p : Polynomial F) (g : P) (x : F) :
    commitment_at (p.feldman_commit g) x = p.evaluate x • g := by
  rw [commitment_at_eq_sum, evaluate_eq_sum, Finset.sum_smul]
  simp only [Polynomial.feldman_commit, List.length_map]
  refine Finset.sum_congr rfl fun i hi => ?_
  have hi' : i < p.coefficients.length := Finset.mem_range.mp hi
  rw [List.getD_eq_getElem _ _ (by simpa using hi'), List.getElem_map,
    List.getD_eq_getElem _ _ hi', smul_smul, mul_comm]

theorem commit_fst_length (p : Polynomial F) (g h : P) (rng : Nat → F) :
    (p.commit g h rng).1.length = p.coefficients.length := by
  simp [Polynomial.commit]

theorem commit_snd_coefficients (p : Polynomial F) (g h : P) (rng : Nat → F) :
    (p.commit g h rng).2.coefficients = (List.range p.coefficients.length).map rng := rfl

theorem commit_fst_getD (p : Polynomial F) (g h : P) (rng : Nat → F) (i : Nat)
    (hi : i < p.coefficients.length) :
    (p.commit g h rng).1.getD i 0 = p.coefficients.getD i 0 • g + rng i • h := by
  have hlen : i < (p.commit g h rng).1.length := by rw [commit_fst_length]; exact hi
  rw [List.getD_eq_getElem _ _ hlen]
  simp only [Polynomial.commit]
  rw [List.getElem_zipWith, List.getElem_map, List.getElem_range,
    List.getD_eq_getElem _ _ hi]

theorem commitment_at_pedersen (p : Polynomial F) (g h : P) (rng : Nat → F) (x : F) :
    commitment_at (p.commit g h rng).1 x
      = p.evaluate x • g + ((p.commit g h rng).2).evaluate x • h := by
  rw [commitment_at_eq_sum, evaluate_eq_sum, evaluate_eq_sum, Finset.sum_smul, Finset.sum_smul,
    commit_fst_length, commit_snd_coefficients, List.length_map, List.length_range,
    ← Finset.sum_add_distrib]
  refine Finset.sum_congr rfl fun i hi => ?_
  have hi' : i < p.coefficients.length := Finset.mem_range.mp hi
  have hmap : (List.map rng (List.range p.coefficients.length)).getD i 0 = rng i := by
    rw [List.getD_eq_getElem _ _ (by simpa using hi'), List.getElem_map, List.getElem_range]
  rw [commit_fst_getD p g h rng i hi', hmap, smul_add, smul_smul, smul_smul,
    mul_comm (x ^ i) (p.coefficients.getD i 0), mul_comm (x ^ i) (rng i)]

theorem commitment_at_pedersen_commit (p : Polynomial F) (g h : P) (rng : Nat → F) (x : F) :
    commitment_at (p.pedersen_commit g h rng).1 x
      = p.evaluate x • g + ((p.pedersen_commit g h rng).2).evaluate x • h :=
  commitment_at_pedersen p g h rng x

theorem eval_toMathPoly (l : List F) (x : F) :
    Polynomial.eval x (toMathPoly l) = hornerList l x := by
  induction l with
  | nil => simp [toMathPoly, hornerList]
  | cons c tl ih =>
      have : toMathPoly (c :: tl) = Polynomial.C c + Polynomial.X * toMathPoly tl := rfl
      rw [this, Polynomial.eval_add, Polynomial.eval_C, Polynomial.eval_mul, Polynomial.eval_X,
        ih, hornerList_cons]
      ring

theorem degree_toMathPoly_lt (l : List F) : (toMathPoly l).degree < l.length := by
  induction l with
  | nil =>
      show (0 : F[X]).degree < ((0 : Nat) : WithBot Nat)
      rw [Polynomial.degree_zero]
      exact WithBot.bot_lt_coe 0
  | cons c tl ih =>
      have hΕ : toMathPoly (c :: tl) = Polynomial.C c + Polynomial.X * toMathPoly tl := rfl
      rw [hΕ, List.length_cons]
      refine lt_of_le_of_lt (Polynomial.degree_add_le _ _) (max_lt ?_ ?_)
      · refine lt_of_le_of_lt Polynomial.degree_C_le ?_
        exact_mod_cast Nat.succ_pos tl.length
      · rw [Polynomial.degree_mul, Polynomial.degree_X]
        calc (1 : WithBot Nat) + (toMathPoly tl).degree
            < 1 + (tl.length : WithBot Nat) := by
              exact WithBot.add_lt_add_left (by simp) ih
          _ = ((tl.length + 1 : Nat) : WithBot Nat) := by
              rw [add_comm]
              exact_mod_cast rfl

theorem eval_zero_toMathPoly (c : F) (tl : List F) :
    Polynomial.eval 0 (toMathPoly (c :: tl)) = c := by
  have : toMathPoly (c :: tl) = Polynomial.C c + Polynomial.X * toMathPoly tl := rfl
  simp [this]

theorem lagrange_num_den_foldl (x_i : F) (i : Nat) (l : List (F × F)) :
    ∀ (k : Nat) (a b : F),
      (List.enumFrom k l).foldl
        (fun nd jxy => if i = jxy.1 then nd else (nd.1 * jxy.2.1, nd.2 * (jxy.2.1 - x_i)))
        (a, b)
      = (a * ∏ j ∈ Finset.range l.length, (if i = k + j then 1 else (l.getD j (0, 0)).1),
         b * ∏ j ∈ Finset.range l.length, (if i = k + j then 1 else ((l.getD j (0, 0)).1 - x_i))) := by
  induction l with
  | nil => intro k a b; simp
  | cons p tl ih =>
      intro k a b
      have h1 : ∏ j ∈ Finset.range tl.length, (if i = k + (j + 1) then 1 else (tl.getD j (0, 0)).1)
          = ∏ j ∈ Finset.range tl.length, (if i = (k + 1) + j then 1 else (tl.getD j (0, 0)).1) :=
        Finset.prod_congr rfl fun j _ => by rw [show k + (j + 1) = (k + 1) + j from by omega]
      have h2 : ∏ j ∈ Finset.range tl.length,
            (if i = k + (j + 1) then 1 else ((tl.getD j (0, 0)).1 - x_i))
          = ∏ j ∈ Finset.range tl.length,
            (if i = (k + 1) + j then 1 else ((tl.getD j (0, 0)).1 - x_i)) :=
        Finset.prod_congr rfl fun j _ => by rw [show k + (j + 1) = (k + 1) + j from by omega]
      simp only [List.enumFrom, List.foldl_cons, List.length_cons, Finset.prod_range_succ',
        List.getD_cons_succ, List.getD_cons_zero, Nat.add_zero, h1, h2]
      by_cases hik : i = k
      · simp only [if_pos hik, ih (k + 1) a b]
        refine Prod.ext ?_ ?_ <;> simp <;> ring
      · simp only [if_neg hik, ih (k + 1) (a * p.1) (b * (p.1 - x_i))]
        refine Prod.ext ?_ ?_ <;> simp <;> ring

theorem lagrange_num_den_eq (shares : List (F × F)) (i : Nat) (x_i : F) :
    lagrange_num_den shares i x_i
      = (∏ j ∈ (Finset.range shares.length).erase i, (shares.getD j (0, 0)).1,
         ∏ j ∈ (Finset.range shares.length).erase i, ((shares.getD j (0, 0)).1 - x_i)) := by
  have h := lagrange_num_den_foldl x_i i shares 0 1 1
  simp only [Nat.zero_add, one_mul] at h
  have e : ∀ f : Nat → F,
      (∏ j ∈ Finset.range shares.length, (if i = j then 1 else f j))
        = ∏ j ∈ (Finset.range shares.length).erase i, f j := by
    intro f
    rw [← Finset.filter_ne' (Finset.range shares.length) i, Finset.prod_filter]
    refine Finset.prod_congr rfl fun j _ => ?_
    by_cases hij : i = j
    · simp [hij]
    · have hji : j ≠ i := fun hj => hij hj.symm
      simp [hij, hji]
  rw [show lagrange_num_den shares i x_i
      = (List.enumFrom 0 shares).foldl
          (fun nd jxy => if i = jxy.1 then nd else (nd.1 * jxy.2.1, nd.2 * (jxy.2.1 - x_i)))
          (1, 1) from rfl, h, e, e]

theorem reconstruct_foldl [DecidableEq F] (shares : List (F × F)) (l : List (F × F)) :
    ∀ (k : Nat) (acc : F),
      (∀ j, j < l.length → (lagrange_num_den shares (k + j) (l.getD j (0, 0)).1).2 ≠ 0) →
      (List.enumFrom k l).foldl
        (fun a ixy => a.bind (fun s =>
          let nd := lagrange_num_den shares ixy.1 ixy.2.1
          if nd.2 = 0 then none else some (s + ixy.2.2 * (nd.1 * nd.2⁻¹)))) (some acc)
      = some (acc + ∑ j ∈ Finset.range l.length,
          (l.getD j (0, 0)).2 * ((lagrange_num_den shares (k + j) (l.getD j (0, 0)).1).1
            * ((lagrange_num_den shares (k + j) (l.getD j (0, 0)).1).2)⁻¹)) := by
  induction l with
  | nil => intro k acc _; simp
  | cons p tl ih =>
      intro k acc hden
      have hp : (lagrange_num_den shares k p.1).2 ≠ 0 := by
        have h0 := hden 0 (by simp)
        simpa using h0
      have hden' : ∀ j, j < tl.length →
          (lagrange_num_den shares ((k + 1) + j) (tl.getD j (0, 0)).1).2 ≠ 0 := by
        intro j hj
        have hs := hden (j + 1) (by simpa using Nat.succ_lt_succ hj)
        rw [show k + (j + 1) = (k + 1) + j from by omega] at hs
        simpa using hs
      have hS : ∑ j ∈ Finset.range tl.length,
            (tl.getD j (0, 0)).2 * ((lagrange_num_den shares (k + (j + 1)) (tl.getD j (0, 0)).1).1
              * ((lagrange_num_den shares (k + (j + 1)) (tl.getD j (0, 0)).1).2)⁻¹)
          = ∑ j ∈ Finset.range tl.length,
            (tl.getD j (0, 0)).2 * ((lagrange_num_den shares ((k + 1) + j) (tl.getD j (0, 0)).1).1
              * ((lagrange_num_den shares ((k + 1) + j) (tl.getD j (0, 0)).1).2)⁻¹) :=
        Finset.sum_congr rfl fun j _ => by
          rw [show k + (j + 1) = (k + 1) + j from by omega]
      simp only [List.enumFrom, List.foldl_cons, Option.some_bind, if_neg hp]
      rw [ih (k + 1)
        (acc + p.2 * ((lagrange_num_den shares k p.1).1 * ((lagrange_num_den shares k p.1).2)⁻¹))
        hden']
      congr 1
      rw [List.length_cons, Finset.sum_range_succ']
      simp only [List.getD_cons_succ, List.getD_cons_zero, Nat.add_zero]
      rw [hS]
      ring

theorem reconstruct_eq_sum [DecidableEq F] (shares : List (F × F))
    (hden : ∀ j, j < shares.length →
      (lagrange_num_den shares j (shares.getD j (0, 0)).1).2 ≠ 0) :
    reconstruct_secret shares
      = some (∑ j ∈ Finset.range shares.length,
          (shares.getD j (0, 0)).2 * ((lagrange_num_den shares j (shares.getD j (0, 0)).1).1
            * ((lagrange_num_den shares j (shares.getD j (0, 0)).1).2)⁻¹)) := by
  have h := reconstruct_foldl shares shares 0 0 (by simpa using hden)
  simp only [Nat.zero_add, zero_add] at h
  exact h

theorem x_injOn_of_nodup (shares : List (F × F))
    (hnd : (shares.map Prod.fst).Nodup) :
    Set.InjOn (fun j => (shares.getD j (0, 0)).1) (Finset.range shares.length) := by
  intro i hi j hj hij
  have hi' : i < shares.length := Finset.mem_range.mp (Finset.mem_coe.mp hi)
  have hj' : j < shares.length := Finset.mem_range.mp (Finset.mem_coe.mp hj)
  have hmi : i < (shares.map Prod.fst).length := by simpa using hi'
  have hmj : j < (shares.map Prod.fst).length := by simpa using hj'
  have hij2 : (shares.getD i (0, 0)).1 = (shares.getD j (0, 0)).1 := hij
  rw [List.getD_eq_getElem _ _ hi', List.getD_eq_getElem _ _ hj'] at hij2
  have heq : (shares.map Prod.fst)[i] = (shares.map Prod.fst)[j] := by
    rw [List.getElem_map, List.getElem_map]
    exact hij2
  exact (List.Nodup.getElem_inj_iff hnd).mp heq

theorem lagrange_den_ne_zero (shares : List (F × F))
    (hnd : (shares.map Prod.fst).Nodup) (j : Nat) (hj : j < shares.length) :
    (lagrange_num_den shares j (shares.getD j (0, 0)).1).2 ≠ 0 := by
  rw [lagrange_num_den_eq]
  rw [Finset.prod_ne_zero_iff]
  intro j' hj'
  have hj'e := Finset.mem_erase.mp hj'
  have hj'r : j' < shares.length := Finset.mem_range.mp hj'e.2
  refine sub_ne_zero_of_ne fun hc => hj'e.1 ?_
  exact x_injOn_of_nodup shares hnd
    (Finset.mem_coe.mpr (Finset.mem_range.mpr hj'r))
    (Finset.mem_coe.mpr (Finset.mem_range.mpr hj)) hc

theorem lagrange_sum_at_zero (Q : F[X]) (shares : List (F × F))
    (hnd : (shares.map Prod.fst).Nodup)
    (hy : ∀ s ∈ shares, s.2 = Polynomial.eval s.1 Q)
    (hdeg : Q.degree < shares.length) :
    ∑ j ∈ Finset.range shares.length,
        (shares.getD j (0, 0)).2 * ((lagrange_num_den shares j (shares.getD j (0, 0)).1).1
          * ((lagrange_num_den shares j (shares.getD j (0, 0)).1).2)⁻¹)
      = Polynomial.eval 0 Q := by
  have hvs := x_injOn_of_nodup shares hnd
  have hQ := Lagrange.eq_interpolate (f := Q) hvs (by rwa [Finset.card_range])
  have heval : Polynomial.eval 0 Q
      = ∑ i ∈ Finset.range shares.length,
          Polynomial.eval ((shares.getD i (0, 0)).1) Q
            * Polynomial.eval 0
              (Lagrange.basis (Finset.range shares.length)
                (fun j => (shares.getD j (0, 0)).1) i) := by
    conv_lhs => rw [hQ]
    rw [Lagrange.interpolate_apply, Polynomial.eval_finset_sum]
    exact Finset.sum_congr rfl fun i _ => by rw [Polynomial.eval_mul, Polynomial.eval_C]
  have hbasis : ∀ i ∈ Finset.range shares.length,
      Polynomial.eval 0
          (Lagrange.basis (Finset.range shares.length)
            (fun j => (shares.getD j (0, 0)).1) i)
        = (∏ j ∈ (Finset.range shares.length).erase i, (shares.getD j (0, 0)).1)
          * (∏ j ∈ (Finset.range shares.length).erase i,
              ((shares.getD j (0, 0)).1 - (shares.getD i (0, 0)).1))⁻¹ := by
    intro i _
    rw [Lagrange.basis, Polynomial.eval_prod, ← Finset.prod_inv_distrib,
      ← Finset.prod_mul_distrib]
    refine Finset.prod_congr rfl fun j _ => ?_
    rw [Lagrange.basisDivisor, Polynomial.eval_mul, Polynomial.eval_C, Polynomial.eval_sub,
      Polynomial.eval_X, Polynomial.eval_C, zero_sub,
      show (shares.getD i (0, 0)).1 - (shares.getD j (0, 0)).1
        = -((shares.getD j (0, 0)).1 - (shares.getD i (0, 0)).1) from (neg_sub _ _).symm,
      inv_neg]
    ring
  rw [heval]
  refine Finset.sum_congr rfl fun j hj => ?_
  have hj' : j < shares.length := Finset.mem_range.mp hj
  have hmem : shares.getD j (0, 0) ∈ shares := by
    rw [List.getD_eq_getElem _ _ hj']
    exact List.getElem_mem hj'
  rw [hbasis j hj, lagrange_num_den_eq, hy _ hmem]

theorem reconstruct_eq_eval_zero [DecidableEq F] (Q : F[X]) (shares : List (F × F))
    (hnd : (shares.map Prod.fst).Nodup)
    (hy : ∀ s ∈ shares, s.2 = Polynomial.eval s.1 Q)
    (hdeg : Q.degree < shares.length) :
    reconstruct_secret shares = some (Polynomial.eval 0 Q) := by
  rw [reconstruct_eq_sum shares (fun j hj => lagrange_den_ne_zero shares hnd j hj),
    lagrange_sum_at_zero Q shares hnd hy hdeg]

/-- C1: for every secret `s`, threshold `1 ≤ t ≤ n`, and rng, reconstruction from
any `t`-element subset of the shares produced by `generate_shares` returns exactly
`s`.  The hypothesis `hchar` records that the share indices `1, …, n` remain
distinct when cast into the scalar field — automatic for the concrete 256-bit
prime field of the code whenever `n` is below the group order. -/
theorem generate_then_reconstruct_round_trip [DecidableEq F]
    (secret : F) (n t : Nat) (rng : Nat → F) (shares sub : List (F × F))
    (ht : 1 ≤ t) (htn : t ≤ n)
    (hchar : ∀ i : Nat, i ≤ n → ∀ j : Nat, j ≤ n → ((i : F) = (j : F)) → i = j)
    (hgen : generate_shares secret n t rng = some shares)
    (hsub : sub.Sublist shares) (hlen : sub.length = t) :
    reconstruct_secret sub = some secret := by
  have ht0 : ¬t = 0 := by omega
  rw [generate_shares, if_neg ht0] at hgen
  have hshares : shares
      = (List.range n).map (fun i => (((i + 1 : Nat) : F),
          (Polynomial.new secret (t - 1) rng).evaluate ((i + 1 : Nat) : F))) :=
    (Option.some.inj hgen).symm
  have hcoeff : (Polynomial.new secret (t - 1) rng).coefficients
      = secret :: (List.range (t - 1)).map rng := rfl
  have hclen : (Polynomial.new secret (t - 1) rng).coefficients.length = t := by
    rw [hcoeff]
    simp only [List.length_cons, List.length_map, List.length_range]
    omega
  have hy : ∀ s ∈ shares,
      s.2 = Polynomial.eval s.1 (toMathPoly (Polynomial.new secret (t - 1) rng).coefficients) := by
    intro s hs
    rw [hshares] at hs
    obtain ⟨i, _, rfl⟩ := List.mem_map.mp hs
    show (Polynomial.new secret (t - 1) rng).evaluate _ = _
    rw [eval_toMathPoly, ← evaluate_eq_hornerList]
  have hysub : ∀ s ∈ sub,
      s.2 = Polynomial.eval s.1 (toMathPoly (Polynomial.new secret (t - 1) rng).coefficients) :=
    fun s hs => hy s (hsub.subset hs)
  have hxs : shares.map Prod.fst = (List.range n).map (fun i => ((i + 1 : Nat) : F)) := by
    rw [hshares, List.map_map]
    rfl
  have hnd : (shares.map Prod.fst).Nodup := by
    rw [hxs]
    refine List.Nodup.map_on ?_ (List.nodup_range n)
    intro i hi j hj hf
    have hf2 : ((i + 1 : Nat) : F) = ((j + 1 : Nat) : F) := hf
    have hi' : i + 1 ≤ n := by have := List.mem_range.mp hi; omega
    have hj' : j + 1 ≤ n := by have := List.mem_range.mp hj; omega
    have := hchar (i + 1) hi' (j + 1) hj' hf2
    omega
  have hndsub : (sub.map Prod.fst).Nodup :=
    List.Nodup.sublist (List.Sublist.map Prod.fst hsub) hnd
  have hdeg : (toMathPoly (Polynomial.new secret (t - 1) rng).coefficients).degree
      < sub.length := by
    have hd := degree_toMathPoly_lt (Polynomial.new secret (t - 1) rng).coefficients
    rw [hclen] at hd
    rw [hlen]
    exact hd
  rw [reconstruct_eq_eval_zero _ sub hndsub hysub hdeg, hcoeff, eval_zero_toMathPoly]

/-- C1 witness: secret 5, n = 3, t = 2 over `ZMod 11`; the subset of the shares at
x = 1 and x = 3 reconstructs the secret. -/
theorem generate_then_reconstruct_round_trip_witness :
    reconstruct_secret [((1 : ZMod 11), 7), ((3 : ZMod 11), 0)] = some 5 :=
  generate_then_reconstruct_round_trip 5 3 2 (fun k => ((k + 2 : Nat) : ZMod 11))
    [(1, 7), (2, 9), (3, 0)] [(1, 7), (3, 0)]
    (by decide) (by decide) (by decide) (by decide) (by decide) (by decide)

/-- C2: with two shares sharing the x-coordinate 1, the Lagrange denominator is
zero and `reconstruct_secret` faults — `denominator.invert().unwrap()` panics on
the zero inversion (modelled `none`); no typed `SingularInterpolation` error is
produced anywhere in the code. -/
theorem reconstruct_secret_duplicate_x_faults :
    reconstruct_secret [((1 : ZMod 11), 5), ((1 : ZMod 11), 7)] = none := by decide

/-- C3: threshold `t = 0` makes the `usize` subtraction `t - 1` underflow in all
three share generators before any explicit check (a fault, modelled `none`); no
`DegreeUnderflow` error is produced anywhere in the code. -/
theorem generate_shares_t_zero_faults :
    generate_shares (5 : ZMod 11) 3 0 (fun _ => 1) = none
      ∧ generate_shares_with_feldman_vss (5 : ZMod 11) 3 0 (1 : ZMod 11) (fun _ => 1) = none
      ∧ generate_shares_with_pedersen_vss (5 : ZMod 11) 3 0 (1 : ZMod 11) (3 : ZMod 11)
          (fun _ => 1) = none :=
  ⟨rfl, rfl, rfl⟩

/-- C4: every share produced by `generate_shares_with_feldman_vss` passes
`verify_share_with_feldman_vss` against the returned commitments, and adding 1 to
any share's value makes verification return `false` (for a generator `g ≠ 0`). -/
theorem feldman_shares_verify_tamper_rejected [DecidableEq P]
    (secret : F) (n t : Nat) (g : P) (rng : Nat → F)
    (hg : g ≠ 0) (ht : 1 ≤ t) (htn : t ≤ n)
    (shares : List (F × F)) (comms : List P)
    (hgen : generate_shares_with_feldman_vss secret n t g rng = some (shares, comms)) :
    ∀ s ∈ shares, verify_share_with_feldman_vss s comms g = true
      ∧ verify_share_with_feldman_vss (s.1, s.2 + 1) comms g = false := by
  have ht0 : ¬t = 0 := by omega
  rw [generate_shares_with_feldman_vss, if_neg ht0] at hgen
  have hpair := Option.some.inj hgen
  have hsh : shares = (List.range n).map (fun i => (((i + 1 : Nat) : F),
      (Polynomial.new secret (t - 1) rng).evaluate ((i + 1 : Nat) : F))) :=
    (congrArg Prod.fst hpair).symm
  have hcm : comms = (Polynomial.new secret (t - 1) rng).feldman_commit g :=
    (congrArg Prod.snd hpair).symm
  intro s hs
  rw [hsh] at hs
  obtain ⟨i, _, rfl⟩ := List.mem_map.mp hs
  constructor
  · simp only [verify_share_with_feldman_vss, beq_iff_eq]
    rw [hcm, commitment_at_feldman]
  · simp only [verify_share_with_feldman_vss]
    refine beq_eq_false_iff_ne.mpr ?_
    rw [hcm, commitment_at_feldman]
    intro hc
    have h2 := sub_eq_zero_of_eq hc
    rw [← sub_smul, add_sub_cancel_left, one_smul] at h2
    exact hg h2

/-- C4 witness: secret 4, n = t = 2 over `ZMod 11` with generator 1; the share at
x = 1 verifies, and its value incremented by 1 is rejected. -/
theorem feldman_shares_verify_tamper_rejected_witness :
    verify_share_with_feldman_vss ((1 : ZMod 11), 5) [(4 : ZMod 11), 1] (1 : ZMod 11) = true
      ∧ verify_share_with_feldman_vss (((1 : ZMod 11), (5 : ZMod 11)).1, ((1 : ZMod 11), (5 : ZMod 11)).2 + 1) [(4 : ZMod 11), 1] (1 : ZMod 11) = false :=
  feldman_shares_verify_tamper_rejected (4 : ZMod 11) 2 2 (1 : ZMod 11)
    (fun k => ((k + 1 : Nat) : ZMod 11)) (by decide) (by decide) (by decide)
    [(1, 5), (2, 6)] [(4 : ZMod 11), 1] (by decide) ((1 : ZMod 11), 5) (by decide)

/-- C5: every share produced by `generate_shares_with_pedersen_vss` passes
`verify_share_with_pedersen_vss` against the returned commitments and blinding
polynomial, and adding 1 to any share's value makes verification return `false`
(for a generator `g ≠ 0`). -/
theorem pedersen_shares_verify_tamper_rejected [DecidableEq P]
    (secret : F) (n t : Nat) (g h : P) (rng : Nat → F)
    (hg : g ≠ 0) (ht : 1 ≤ t) (htn : t ≤ n)
    (shares : List (F × F)) (comms : List P) (bpoly : Polynomial F)
    (hgen : generate_shares_with_pedersen_vss secret n t g h rng
      = some (shares, comms, bpoly)) :
    ∀ s ∈ shares, verify_share_with_pedersen_vss s comms bpoly g h = true
      ∧ verify_share_with_pedersen_vss (s.1, s.2 + 1) comms bpoly g h = false := by
  have ht0 : ¬t = 0 := by omega
  rw [generate_shares_with_pedersen_vss, if_neg ht0] at hgen
  have hpair := Option.some.inj hgen
  have hsh : shares = (List.range n).map (fun i => (((i + 1 : Nat) : F),
      (Polynomial.new secret (t - 1) rng).evaluate ((i + 1 : Nat) : F))) :=
    (congrArg Prod.fst hpair).symm
  have hcm : comms = ((Polynomial.new secret (t - 1) rng).pedersen_commit g h
      (fun k => rng ((t - 1) + k))).1 :=
    (congrArg (fun z => z.2.1) hpair).symm
  have hbp : bpoly = ((Polynomial.new secret (t - 1) rng).pedersen_commit g h
      (fun k => rng ((t - 1) + k))).2 :=
    (congrArg (fun z => z.2.2) hpair).symm
  intro s hs
  rw [hsh] at hs
  obtain ⟨i, _, rfl⟩ := List.mem_map.mp hs
  constructor
  · simp only [verify_share_with_pedersen_vss, beq_iff_eq]
    rw [hcm, hbp, commitment_at_pedersen_commit]
  · simp only [verify_share_with_pedersen_vss]
    refine beq_eq_false_iff_ne.mpr ?_
    rw [hcm, hbp, commitment_at_pedersen_commit]
    intro hc
    have hc2 := add_right_cancel hc
    have h2 := sub_eq_zero_of_eq hc2
    rw [← sub_smul, add_sub_cancel_left, one_smul] at h2
    exact hg h2

/-- C5 witness: secret 4, n = t = 2 over `ZMod 11` with generators 1 and 3; the
share at x = 1 verifies, and its value incremented by 1 is rejected. -/
theorem pedersen_shares_verify_tamper_rejected_witness :
    verify_share_with_pedersen_vss ((1 : ZMod 11), 5) [(10 : ZMod 11), 10] ⟨[2, 3]⟩
        (1 : ZMod 11) (3 : ZMod 11) = true
      ∧ verify_share_with_pedersen_vss (((1 : ZMod 11), (5 : ZMod 11)).1,
            ((1 : ZMod 11), (5 : ZMod 11)).2 + 1) [(10 : ZMod 11), 10] ⟨[2, 3]⟩
          (1 : ZMod 11) (3 : ZMod 11) = false :=
  pedersen_shares_verify_tamper_rejected (4 : ZMod 11) 2 2 (1 : ZMod 11) (3 : ZMod 11)
    (fun k => ((k + 1 : Nat) : ZMod 11)) (by decide) (by decide) (by decide)
    [(1, 5), (2, 6)] [(10 : ZMod 11), 10] ⟨[2, 3]⟩ (by decide) ((1 : ZMod 11), 5) (by decide)

/-- C6: the commitment vectors are homomorphic at every scalar `x`, not only at
the distributed share points: the Feldman sum `Σ_i C_i·x^i` equals `g·p(x)`, and
the Pedersen sum equals `g·p(x) + h·b(x)` for the returned blinding polynomial. -/
theorem commitment_homomorphism_all_points (p : Polynomial F) (g h : P)
    (rng : Nat → F) (x : F) :
    commitment_at (p.feldman_commit g) x = p.evaluate x • g
      ∧ commitment_at (p.pedersen_commit g h rng).1 x
        = p.evaluate x • g + ((p.pedersen_commit g h rng).2).evaluate x • h :=
  ⟨commitment_at_feldman p g x, commitment_at_pedersen p g h rng x⟩

/-- C7: Horner evaluation returns exactly `Σ_i c_i·x^i`, and evaluation at 0
returns the constant term. -/
theorem evaluate_eq_powersum_and_constant_term (c0 : F) (rest : List F) (x : F) :
    Polynomial.evaluate ⟨c0 :: rest⟩ x
        = ∑ i ∈ Finset.range (c0 :: rest).length, (c0 :: rest).getD i 0 * x ^ i
      ∧ Polynomial.evaluate ⟨c0 :: rest⟩ 0 = c0 := by
  refine ⟨evaluate_eq_sum ⟨c0 :: rest⟩ x, ?_⟩
  rw [evaluate_eq_hornerList, hornerList_cons, mul_zero, zero_add]

/-- C8: `Polynomial::new` always succeeds, with constant coefficient the given
secret and exactly `degree + 1` coefficients. -/
theorem polynomial_new_shape (secret : F) (degree : Nat) (rng : Nat → F) :
    (Polynomial.new secret degree rng).coefficients.length = degree + 1
      ∧ (Polynomial.new secret degree rng).coefficients.head? = some secret := by
  constructor
  · show (secret :: (List.range degree).map rng).length = degree + 1
    simp
  · rfl

/-- C9: the Pedersen commit operation returns a commitment vector and a blinding
polynomial both of the committed polynomial's length, with blinding coefficient
`i` the one used inside commitment `i`. -/
theorem commit_shape (p : Polynomial F) (g h : P) (rng : Nat → F) :
    (p.commit g h rng).1.length = p.coefficients.length
      ∧ (p.commit g h rng).2.coefficients.length = p.coefficients.length
      ∧ ∀ i, i < (p.commit g h rng).1.length →
          (p.commit g h rng).1.getD i 0
            = p.coefficients.getD i 0 • g
              + ((p.commit g h rng).2.coefficients.getD i 0) • h := by
  refine ⟨commit_fst_length p g h rng, ?_, ?_⟩
  · rw [commit_snd_coefficients]
    simp
  · intro i hi
    rw [commit_fst_length] at hi
    have hmap : ((List.range p.coefficients.length).map rng).getD i 0 = rng i := by
      rw [List.getD_eq_getElem _ _ (by simpa using hi), List.getElem_map, List.getElem_range]
    rw [commit_fst_getD p g h rng i hi, commit_snd_coefficients, hmap]

/-- C9 witness: the commitment at index 0 of a concrete Pedersen commit over
`ZMod 11` decomposes as coefficient times `g` plus blinding coefficient times `h`. -/
theorem commit_shape_witness :
    ((⟨[4, 1]⟩ : Polynomial (ZMod 11)).commit (1 : ZMod 11) (3 : ZMod 11)
        (fun k => ((k + 2 : Nat) : ZMod 11))).1.getD 0 0
      = (⟨[4, 1]⟩ : Polynomial (ZMod 11)).coefficients.getD 0 0 • (1 : ZMod 11)
        + (((⟨[4, 1]⟩ : Polynomial (ZMod 11)).commit (1 : ZMod 11) (3 : ZMod 11)
            (fun k => ((k + 2 : Nat) : ZMod 11))).2.coefficients.getD 0 0) • (3 : ZMod 11) :=
  (commit_shape (⟨[4, 1]⟩ : Polynomial (ZMod 11)) (1 : ZMod 11) (3 : ZMod 11)
    (fun k => ((k + 2 : Nat) : ZMod 11))).2.2 0 (by decide)

/-- C10: reconstruction from the empty share list returns zero without error, and
from a single share `(x, y)` — for any `x`, including 0 — returns `y`. -/
theorem reconstruct_empty_and_singleton [DecidableEq F] :
    reconstruct_secret ([] : List (F × F)) = some 0
      ∧ ∀ x y : F, reconstruct_secret [(x, y)] = some y := by
  refine ⟨rfl, fun x y => ?_⟩
  have hstep : reconstruct_secret [(x, y)]
      = (if (1 : F) = 0 then none else some ((0 : F) + y * ((1 : F) * (1 : F)⁻¹))) := rfl
  rw [hstep, if_neg (one_ne_zero : (1 : F) ≠ 0)]
  norm_num

end SecretSharing
